import Mathlib

/-
Verification of the mireiniwr triage core against its specification.

The Rust sources are shallowly embedded:
- `f64` values produced by exact rational arithmetic are idealised as `ℚ`
  (wrapped in `F64` where the IEEE non-finite values NaN/inf are reachable),
  and values produced with `log2` as `ℝ` with `Real.logb 2`;
- strings are Lean `String`s, `String::len` (UTF-8 byte length) is
  `strByteLen`, `chars()` is `String.data`;
- the `HashMap` character histogram of `shannon_entropy_str` is embedded as
  the list of counts of the distinct characters in first-occurrence order
  (the sum over it is order-independent);
- `enumerate().map(..).sum()` in `benford_diff` is embedded as an indexed
  recursion producing the same sum;
- the filesystem is explicit: a file is `Option (List ℕ)` (`none` = the open
  fails), a directory entry carries its extension and the result of reading
  its header.
-/

namespace Mireiniwr

/- ## file_signatures.rs -/

/-- The closed enumeration of recognised file kinds
(`enum FileSigniture`, file_signatures.rs lines 5-17). -/
inductive FileSigniture where
  | Unknown
  | MultiBitBitcoinWallet
  | ArmoredPGPPublicKey
  | SQLiteDatabase
  | TelegramDesktopFile
  | TelegramDesktopEncryptedFile
  | JKSJavaKeyStore
  | PuTTYPrivateKeyV2
  | PuTTYPrivateKeyV3
  | OpenSSHPrivateKey
  | WindowsRegistry
  deriving DecidableEq, Repr

/-- Embedding of `FileSigniture::from_bytes` (file_signatures.rs lines 19-23).
The Rust body is literally `FileSigniture::Unknown` for every input. -/
def FileSigniture.from_bytes (_inital_file_bytes : List ℕ) : FileSigniture :=
  FileSigniture.Unknown

/-- The 16-byte magic prefix of an SQLite database file, "SQLite format 3\x00". -/
def sqliteMagic : List ℕ :=
  [0x53, 0x51, 0x4C, 0x69, 0x74, 0x65, 0x20, 0x66, 0x6F, 0x72, 0x6D, 0x61,
   0x74, 0x20, 0x33, 0x00]

/- ## frequency_analysis.rs -/

/-- Model of an IEEE double produced by the digit-frequency pipeline: the
reachable values are NaN (0.0/0.0), +infinity (x/0.0 with x > 0) and exact
rationals. -/
inductive F64 where
  | nan
  | inf
  | val (q : ℚ)
  deriving DecidableEq, Repr

/-- Rust `(a as f64) / (b as f64)` for naturals `a`, `b`, with the IEEE
division-by-zero behaviour made explicit. -/
def f64NatDiv (a b : ℕ) : F64 :=
  if b = 0 then (if a = 0 then F64.nan else F64.inf)
  else F64.val ((a : ℚ) / (b : ℚ))

/-- Sum of a list of `F64` values: defined (`some`) exactly when every entry is
finite, mirroring that adding NaN or infinity poisons an f64 sum. -/
def f64ListSum (l : List F64) : Option ℚ :=
  l.foldr
    (fun x acc =>
      match x, acc with
      | F64.val q, some s => some (q + s)
      | _, _ => none)
    (some 0)

/-- Embedding of `shannon_entropy_vec` (frequency_analysis.rs lines 8-15):
sum of `-(x/total) * log2 (x/total)` over the positive counts, where
`total` is the sum of all counts. -/
noncomputable def shannon_entropy_vec (decomp : List ℕ) : ℝ :=
  ((decomp.filter (fun x => 0 < x)).map
    (fun x : ℕ =>
      -((x : ℝ) / (decomp.sum : ℝ)) * Real.logb 2 ((x : ℝ) / (decomp.sum : ℝ)))).sum

/-- The values of the `HashMap` character histogram built by
`shannon_entropy_str`: the count of each distinct character of the string. -/
def charCounts (text : String) : List ℕ :=
  text.data.dedup.map (fun c => text.data.count c)

/-- Rust `String::len`: the UTF-8 byte length of the string (not its
character count). -/
def strByteLen (text : String) : ℕ :=
  (text.data.map Char.utf8Size).sum

/-- Embedding of `shannon_entropy_str` (frequency_analysis.rs lines 18-29):
the same entropy formula over the character histogram, except that the Rust
code divides by `text.len()`, the UTF-8 byte length. -/
noncomputable def shannon_entropy_str (text : String) : ℝ :=
  ((charCounts text).map
    (fun x : ℕ =>
      -((x : ℝ) / (strByteLen text : ℝ)) *
        Real.logb 2 ((x : ℝ) / (strByteLen text : ℝ)))).sum

/-- The static 5 x 10 Benford probability table of `prob_of_benford_digit`
(frequency_analysis.rs lines 34-95), with each f64 decimal literal read as the
exact decimal rational it denotes. -/
def benfordProbs : List (List ℚ) :=
  [[0.0,
    0.3010299956639812,
    0.17609125905568124,
    0.12493873660829992,
    0.09691001300805642,
    0.07918124604762482,
    0.06694678963061322,
    0.05799194697768673,
    0.05115252244738129,
    0.04575749056067514],
   [0.11967926859688073,
    0.1138901034075564,
    0.10882149900550823,
    0.10432956023095939,
    0.10030820226757937,
    0.09667723580232243,
    0.09337473578303615,
    0.09035198926960332,
    0.08757005357886138,
    0.08499735205769224],
   [0.1017843646442167,
    0.10137597744780127,
    0.10097219813704165,
    0.1005729321109262,
    0.1001780876279476,
    0.09978757569217742,
    0.09940130994496177,
    0.09901920656189599,
    0.09864118415477721,
    0.09826716367825329],
   [0.10017614693993555,
    0.100136888117578,
    0.1000976725946149,
    0.10005850028348687,
    0.10001937109690452,
    0.09998028494784099,
    0.09994124174952602,
    0.09990224141544911,
    0.09986328385937243,
    0.09982436899529125],
   [0.100017591505929,
    0.10001368113544618,
    0.10000977119522403,
    0.1000058616851637,
    0.1000019526051873,
    0.09999804395520129,
    0.09999413573512496,
    0.09999022794487125,
    0.09998632058435514,
    0.09998241365348551]]

/-- Embedding of `prob_of_benford_digit` (frequency_analysis.rs lines 33-103):
the guarded table lookup with the 0.1 fallback. The guard makes both `getD`
defaults unreachable, so the embedding is total exactly as the Rust indexing
is panic-free. -/
def prob_of_benford_digit (digit position : ℕ) : ℚ :=
  if 9 < digit ∨ benfordProbs.length ≤ position then 0.1
  else (benfordProbs.getD position []).getD digit 0

/-- Embedding of `digit_freq_at_idx`'s inner character loop
(frequency_analysis.rs lines 120-138) for one number: scan the characters,
skip non-digits, skip zeros while no non-zero digit has been seen, and return
the digit value found at `index` (counting from the first non-zero digit),
or `none` when the number has no digit at that position. -/
def scanNum (index : ℕ) : List Char → ℕ → Option ℕ
  | [], _ => none
  | c :: rest, digit_idx =>
    if c.isDigit then
      if digit_idx = 0 ∧ c = '0' then scanNum index rest digit_idx
      else if digit_idx = index ∧ ¬(digit_idx = 0 ∧ c = '0') then
        some (c.toNat - 48)
      else scanNum index rest (digit_idx + 1)
    else scanNum index rest digit_idx

/-- The `digit_cnt` / `total_digits` accumulation of `digit_freq_at_idx` over
the rendered numbers. -/
def digitTally (nums : List String) (index : ℕ) : List ℕ × ℕ :=
  nums.foldl
    (fun acc num =>
      match scanNum index num.data 0 with
      | some d => (acc.1.set d (acc.1.getD d 0 + 1), acc.2 + 1)
      | none => acc)
    (List.replicate 10 0, 0)

/-- Embedding of `digit_freq_at_idx` (frequency_analysis.rs lines 109-146),
taking the numbers already rendered by `ToString`. The final map divides each
count by `total_digits` with f64 semantics (`f64NatDiv`), so a zero total on a
non-empty input yields NaN entries, exactly as in the Rust code. -/
def digit_freq_at_idx (nums : List String) (index : ℕ) : List F64 :=
  if nums.isEmpty then List.replicate 10 (F64.val 0)
  else ((digitTally nums index).1).map (fun c => f64NatDiv c (digitTally nums index).2)

/-- Embedding of `benford_diff` (frequency_analysis.rs lines 150-156): the sum
over `enumerate()` of `|freq - prob_of_benford_digit digit index|`, written as
a recursion carrying the running digit index. -/
noncomputable def benfordDiffAux (index : ℕ) : ℕ → List ℝ → ℝ
  | _, [] => 0
  | digit, f :: rest =>
    |f - (prob_of_benford_digit digit index : ℝ)| + benfordDiffAux index (digit + 1) rest

/-- Embedding of `benford_diff` (frequency_analysis.rs lines 150-156). -/
noncomputable def benford_diff (num_freq : List ℝ) (index : ℕ) : ℝ :=
  benfordDiffAux index 0 num_freq

/- ## os_interactions.rs -/

/-- Model of `Read::read_exact` on a regular file read from the start: filling
a buffer of `k` bytes succeeds returning the first `k` bytes exactly when the
file holds at least `k` bytes, and fails (without a usable buffer) otherwise. -/
def read_exact (content : List ℕ) (k : ℕ) : Option (List ℕ) :=
  if k ≤ content.length then some (content.take k) else none

/-- Embedding of `read_file_header` (os_interactions.rs lines 11-25): a file is
`none` when the open fails, otherwise its byte content; the buffer size is
`min file_size 64` and the buffer is filled with `read_exact`. -/
def read_file_header (file : Option (List ℕ)) : Option (List ℕ) :=
  match file with
  | none => none
  | some content => read_exact content (min content.length 64)

/-- A directory entry seen by `file_search`: an abstract path identifier,
whether the entry is a regular file, its extension (as in
`Path::extension`: `none` when the file name has no extension), and the
result of `read_file_header` on it. -/
structure DirEntry where
  path : ℕ
  isFile : Bool
  extension : Option String
  header : Option (List ℕ)

/-- The extension test of `file_search` (os_interactions.rs lines 53-55): some
listed extension equals the file's extension, an empty-string entry matching
exactly the extensionless files. -/
def extMatches (entry : DirEntry) (extentions : List String) : Bool :=
  extentions.any (fun exten =>
    match entry.extension with
    | some e => e == exten
    | none => exten == "")

/-- The per-file decision of the `file_search` walk loop (os_interactions.rs
lines 49-83): a non-file yields nothing; an extension match is included at
once (the text rule is never reached); otherwise, with the text flag set, the
file is included unless its header read fails, the header is empty, or some
header byte is < 32 or = 127. -/
def processEntry (extentions : List String) (txt_files : Bool) (entry : DirEntry) :
    Option ℕ :=
  if entry.isFile then
    if extMatches entry extentions then some entry.path
    else if txt_files then
      match entry.header with
      | none => none
      | some file_head =>
        if file_head.length = 0 then none
        else if file_head.any (fun char_val => char_val < 32 || char_val == 127) then none
        else some entry.path
    else none
  else none

/-- Embedding of the collection loop of `file_search`: each directory entry
contributes at most one path, via `processEntry`. -/
def file_search (entries : List DirEntry) (extentions : List String)
    (txt_files : Bool) : List ℕ :=
  entries.filterMap (processEntry extentions txt_files)

/- ## Claim theorems -/

/-- Claim C1 (code_bug evidence): `FileSigniture::from_bytes` returns `Unknown`
for every input, including a header carrying the exact SQLite magic prefix, so
no input yields any of the ten non-Unknown kinds. -/
theorem C1_classify_always_unknown :
    FileSigniture.from_bytes sqliteMagic = FileSigniture.Unknown ∧
    ∀ bs : List ℕ, FileSigniture.from_bytes bs = FileSigniture.Unknown :=
  ⟨rfl, fun _ => rfl⟩

/-- Claim C2 (code_bug evidence): on the non-empty collection `[0]`, none of
whose numbers has a digit at position 0, every entry of the returned vector is
NaN (0/0 with f64 semantics), not a well-formed number; the empty collection
does yield all-zero frequencies. -/
theorem C2_digit_freq_nan_on_zero_total :
    digit_freq_at_idx ["0"] 0 = List.replicate 10 F64.nan ∧
    digit_freq_at_idx [] 0 = List.replicate 10 (F64.val 0) := by
  constructor <;> decide

/-- Claim C5: on [420, 463, 981, 19, 578, 265, 39, 876, 539, 941] at position 0
the frequencies are the empirical leading-digit counts divided by the total of
10 observed digits (digit 4 twice -> 1/5, digit 1 once -> 1/10, digit 0 never
-> 0), and they sum to 1. -/
theorem C5_digit_freq_sample :
    digit_freq_at_idx ["420", "463", "981", "19", "578", "265", "39", "876", "539", "941"] 0 =
      [F64.val 0, F64.val (1/10), F64.val (1/10), F64.val (1/10), F64.val (1/5),
       F64.val (1/5), F64.val 0, F64.val 0, F64.val (1/10), F64.val (1/5)] ∧
    f64ListSum
      (digit_freq_at_idx ["420", "463", "981", "19", "578", "265", "39", "876", "539", "941"] 0) =
      some 1 := by
  have hc :
      digitTally ["420", "463", "981", "19", "578", "265", "39", "876", "539", "941"] 0 =
        ([0, 1, 1, 1, 2, 2, 0, 0, 1, 2], 10) := by decide
  have hfreq :
      digit_freq_at_idx ["420", "463", "981", "19", "578", "265", "39", "876", "539", "941"] 0 =
        [F64.val 0, F64.val (1/10), F64.val (1/10), F64.val (1/10), F64.val (1/5),
         F64.val (1/5), F64.val 0, F64.val 0, F64.val (1/10), F64.val (1/5)] := by
    unfold digit_freq_at_idx
    rw [hc]
    norm_num [f64NatDiv]
  refine ⟨hfreq, ?_⟩
  rw [hfreq]
  norm_num [f64ListSum]

/-- Claim C6: `prob_of_benford_digit` is total, `prob_of_benford_digit 0 0 = 0`
(a first significant digit is never 0), and every out-of-range digit (> 9) or
position (>= 5) falls back to exactly 0.1. -/
theorem C6_benford_reference :
    prob_of_benford_digit 0 0 = 0 ∧
    ∀ digit position : ℕ, 9 < digit ∨ 5 ≤ position →
      prob_of_benford_digit digit position = 0.1 := by
  constructor
  · norm_num [prob_of_benford_digit, benfordProbs]
  · intro digit position h
    unfold prob_of_benford_digit
    rw [if_pos]
    rw [show benfordProbs.length = 5 from rfl]
    exact h

/-- Witness for C6: the fallback fires at the concrete out-of-range inputs
(10, 0) and (3, 5) named by the claim. -/
theorem C6_benford_reference_witness :
    prob_of_benford_digit 10 0 = 0.1 ∧ prob_of_benford_digit 3 5 = 0.1 :=
  ⟨C6_benford_reference.2 10 0 (Or.inl (by norm_num)),
   C6_benford_reference.2 3 5 (Or.inr (by norm_num))⟩

/-- Claim C8: for a regular file that matched no target extension and with the
text flag set, the file is excluded (no path produced) exactly when its header
read fails, the header is empty, or some header byte is < 32 or = 127, and
otherwise it is included as itself; an extension-matched file is included with
the text rule never consulted (the result is the same whatever its header
reads); each directory entry contributes at most one path, so no file is
duplicated. -/
theorem C8_text_rule :
    (∀ (extentions : List String) (entry : DirEntry),
        entry.isFile = true → extMatches entry extentions = false →
        ((processEntry extentions true entry = none) ↔
          (entry.header = none ∨ entry.header = some [] ∨
            ∃ hd b, entry.header = some hd ∧ b ∈ hd ∧ (b < 32 ∨ b = 127))) ∧
        (processEntry extentions true entry = none ∨
          processEntry extentions true entry = some entry.path)) ∧
    (∀ (extentions : List String) (entry : DirEntry) (hdr : Option (List ℕ)),
        entry.isFile = true → extMatches entry extentions = true →
        processEntry extentions true { entry with header := hdr } = some entry.path) ∧
    (∀ (entries : List DirEntry) (extentions : List String) (txt_files : Bool),
        (file_search entries extentions txt_files).length ≤ entries.length) := by
  refine ⟨?_, ?_, ?_⟩
  · intro exts entry hf hm
    have hstep : processEntry exts true entry =
        (match entry.header with
         | none => none
         | some file_head =>
           if file_head.length = 0 then none
           else if file_head.any (fun char_val => char_val < 32 || char_val == 127) then none
           else some entry.path) := by
      simp [processEntry, hf, hm]
    cases hh : entry.header with
    | none =>
      rw [hh] at hstep
      exact ⟨by rw [hstep]; simp [hh], Or.inl hstep⟩
    | some hd =>
      rw [hh] at hstep
      have hstep2 : processEntry exts true entry =
          (if hd.length = 0 then none
           else if hd.any (fun char_val => char_val < 32 || char_val == 127) then none
           else some entry.path) := by rw [hstep]
      by_cases hnil : hd = []
      · subst hnil
        constructor
        · rw [hstep2]; simp [hh]
        · left; rw [hstep2]; rfl
      · have hlen : ¬hd.length = 0 := fun h => hnil (List.length_eq_zero.mp h)
        by_cases hany : hd.any (fun char_val => char_val < 32 || char_val == 127) = true
        · simp only [List.any_eq_true, Bool.or_eq_true, decide_eq_true_eq,
            beq_iff_eq] at hany
          obtain ⟨b, hb, hcond⟩ := hany
          constructor
          · rw [hstep2, if_neg hlen, if_pos (by
              simp only [List.any_eq_true, Bool.or_eq_true, decide_eq_true_eq, beq_iff_eq]
              exact ⟨b, hb, hcond⟩)]
            simp only [hh, true_iff]
            exact Or.inr (Or.inr ⟨hd, b, rfl, hb, hcond⟩)
          · left
            rw [hstep2, if_neg hlen, if_pos (by
              simp only [List.any_eq_true, Bool.or_eq_true, decide_eq_true_eq, beq_iff_eq]
              exact ⟨b, hb, hcond⟩)]
        · rw [Bool.not_eq_true] at hany
          constructor
          · rw [hstep2, if_neg hlen, if_neg (by rw [hany]; exact Bool.false_ne_true)]
            apply iff_of_false
            · exact fun h => Option.noConfusion h
            · rintro (h | h | ⟨hd2, b, heq, hb, hcond⟩)
              · exact Option.noConfusion h
              · injection h with h
                exact hnil h
              · injection heq with heq
                subst heq
                have : hd.any (fun char_val => char_val < 32 || char_val == 127) = true := by
                  simp only [List.any_eq_true, Bool.or_eq_true, decide_eq_true_eq, beq_iff_eq]
                  exact ⟨b, hb, hcond⟩
                rw [hany] at this
                exact Bool.false_ne_true this
          · right
            rw [hstep2, if_neg hlen, if_neg (by rw [hany]; exact Bool.false_ne_true)]
  · intro exts entry hdr hf hm
    obtain ⟨p, isf, ext, hdr0⟩ := entry
    have hf2 : isf = true := hf
    subst hf2
    have hm2 : extMatches { path := p, isFile := true, extension := ext, header := hdr } exts =
        true := hm
    simp [processEntry, hm2]
  · intro entries exts txt
    exact List.length_filterMap_le _ _

/-- Witness for C8: a concrete extension-matched file is included whatever its
header holds. -/
theorem C8_text_rule_witness :
    processEntry ["txt"] true ⟨7, true, some "txt", some []⟩ = some 7 :=
  C8_text_rule.2.1 ["txt"] ⟨7, true, some "txt", none⟩ (some []) rfl rfl

/-- Claim C9: on a readable regular file of n bytes, `read_file_header`
succeeds returning exactly the first min(n, 64) bytes (the whole file when it
is smaller than 64 bytes, down to empty), and a failed open returns no buffer
at all. -/
theorem C9_read_header :
    ∀ content : List ℕ,
      read_file_header (some content) = some (content.take (min content.length 64)) ∧
      (content.length ≤ 64 → read_file_header (some content) = some content) ∧
      read_file_header none = none := by
  intro content
  refine ⟨?_, ?_, rfl⟩
  · show read_exact content (min content.length 64) = some (content.take (min content.length 64))
    unfold read_exact
    rw [if_pos (min_le_left _ _)]
  · intro h
    show read_exact content (min content.length 64) = some content
    unfold read_exact
    rw [if_pos (min_le_left _ _), min_eq_left h, List.take_length]

/-- Witness for C9: a concrete 3-byte file is returned whole. -/
theorem C9_read_header_witness :
    read_file_header (some [1, 2, 3]) = some [1, 2, 3] :=
  (C9_read_header [1, 2, 3]).2.1 (by norm_num)

/-- Claim C10: `digit_freq_at_idx` ignores non-digit characters, so negating
any one element of the collection (prepending a minus sign to its rendered
form) leaves the returned frequency vector unchanged, for every collection and
position. -/
theorem C10_digit_freq_neg_invariant :
    ∀ (pre post : List String) (s : String) (index : ℕ),
      digit_freq_at_idx (pre ++ ("-" ++ s) :: post) index =
        digit_freq_at_idx (pre ++ s :: post) index := by
  intro pre post s index
  have hscan : ∀ (l : List Char) (d : ℕ), scanNum index ('-' :: l) d = scanNum index l d :=
    fun l d => rfl
  have hdata : ("-" ++ s).data = '-' :: s.data := by
    rw [String.data_append]; rfl
  have htally :
      digitTally (pre ++ ("-" ++ s) :: post) index = digitTally (pre ++ s :: post) index := by
    unfold digitTally
    rw [List.foldl_append, List.foldl_append, List.foldl_cons, List.foldl_cons,
      hdata, hscan]
  have h1 : (pre ++ ("-" ++ s) :: post).isEmpty = false := by cases pre <;> rfl
  have h2 : (pre ++ s :: post).isEmpty = false := by cases pre <;> rfl
  unfold digit_freq_at_idx
  rw [h1, h2, htally]

lemma sum_filter_pos_eq (l : List ℕ) : (l.filter (fun x => 0 < x)).sum = l.sum := by
  induction l with
  | nil => rfl
  | cons a t ih =>
    by_cases h : 0 < a
    · simp [List.filter_cons, h, ih]
    · have ha : a = 0 := by omega
      subst ha
      simp only [List.filter_cons]
      simpa using ih

lemma entropy_term_nonneg {s : ℝ} {x : ℕ} (hx : 0 < x) (hxs : (x : ℝ) ≤ s) :
    0 ≤ -((x : ℝ) / s) * Real.logb 2 ((x : ℝ) / s) := by
  have hx0 : (0 : ℝ) < x := by exact_mod_cast hx
  have hs : (0 : ℝ) < s := lt_of_lt_of_le hx0 hxs
  have hp0 : 0 < (x : ℝ) / s := div_pos hx0 hs
  have hp1 : (x : ℝ) / s ≤ 1 := (div_le_one hs).mpr hxs
  have hl : Real.logb 2 ((x : ℝ) / s) ≤ 0 :=
    Real.logb_nonpos (by norm_num) hp0.le hp1
  nlinarith

lemma mem_le_sum_nat {l : List ℕ} {x : ℕ} (hx : x ∈ l) : x ≤ l.sum :=
  List.single_le_sum (fun y _ => Nat.zero_le y) x hx

/-- Claim C4: `shannon_entropy_vec` is 0 when all bins are zero (including the
empty vector) or exactly one bin is non-zero, is strictly positive when at
least two bins are non-zero, and is never negative (f64 idealised as ℝ). -/
theorem C4_entropy_sign :
    ∀ l : List ℕ,
      0 ≤ shannon_entropy_vec l ∧
      ((∀ x ∈ l, x = 0) → shannon_entropy_vec l = 0) ∧
      ((l.filter (fun x => x ≠ 0)).length = 1 → shannon_entropy_vec l = 0) ∧
      (2 ≤ (l.filter (fun x => x ≠ 0)).length → 0 < shannon_entropy_vec l) := by
  intro l
  have hfilter : l.filter (fun x => x ≠ 0) = l.filter (fun x => 0 < x) := by
    apply List.filter_congr
    intro x _
    simp [Nat.pos_iff_ne_zero]
  have hterm : ∀ y ∈ (l.filter (fun x => 0 < x)).map
      (fun x : ℕ => -((x : ℝ) / (l.sum : ℝ)) * Real.logb 2 ((x : ℝ) / (l.sum : ℝ))), 0 ≤ y := by
    intro y hy
    obtain ⟨x, hxmem, rfl⟩ := List.mem_map.mp hy
    have hx : 0 < x := by
      have := List.of_mem_filter hxmem
      simpa using this
    have hxl : x ∈ l := List.mem_of_mem_filter hxmem
    have hxs : (x : ℝ) ≤ (l.sum : ℝ) := by exact_mod_cast mem_le_sum_nat hxl
    exact entropy_term_nonneg hx hxs
  refine ⟨List.sum_nonneg hterm, ?_, ?_, ?_⟩
  · intro hz
    have hnil : l.filter (fun x => 0 < x) = [] := by
      rw [List.filter_eq_nil_iff]
      intro a ha
      simp [hz a ha]
    unfold shannon_entropy_vec
    rw [hnil]
    rfl
  · intro h1
    rw [hfilter] at h1
    obtain ⟨x, hx⟩ := List.length_eq_one.mp h1
    have hxpos : 0 < x := by
      have hxin : x ∈ l.filter (fun x => 0 < x) := by
        rw [hx]; exact List.mem_singleton_self x
      simpa using List.of_mem_filter hxin
    have hsum : l.sum = x := by
      rw [← sum_filter_pos_eq, hx]
      simp
    unfold shannon_entropy_vec
    rw [hx, hsum]
    have hxx : ((x : ℝ) / (x : ℝ)) = 1 := by
      rw [div_self]
      exact_mod_cast hxpos.ne'
    simp [hxx]
  · intro h2
    rw [hfilter] at h2
    obtain ⟨a, rest, hm0⟩ : ∃ a rest, l.filter (fun x => 0 < x) = a :: rest := by
      cases hcase : l.filter (fun x => 0 < x) with
      | nil => rw [hcase] at h2; simp at h2
      | cons a rest => exact ⟨a, rest, rfl⟩
    obtain ⟨b, t, hm1⟩ : ∃ b t, rest = b :: t := by
      cases hcase : rest with
      | nil =>
        rw [hcase] at hm0
        rw [hm0] at h2
        simp at h2
      | cons b t => exact ⟨b, t, rfl⟩
    subst hm1
    have hmem : ∀ y ∈ a :: b :: t, 0 < y := by
      intro y hy
      have hyin : y ∈ l.filter (fun x => 0 < x) := by rw [hm0]; exact hy
      simpa using List.of_mem_filter hyin
    have ha : 0 < a := hmem a (by simp)
    have hb : 0 < b := hmem b (by simp)
    have hsum2 : l.sum = a + b + t.sum := by
      rw [← sum_filter_pos_eq, hm0]
      simp [List.sum_cons]
      omega
    have halt : a < l.sum := by omega
    have has : (0 : ℝ) < (l.sum : ℝ) := by
      have : 0 < l.sum := by omega
      exact_mod_cast this
    have hp0 : 0 < (a : ℝ) / (l.sum : ℝ) := div_pos (by exact_mod_cast ha) has
    have hp1 : (a : ℝ) / (l.sum : ℝ) < 1 := by
      rw [div_lt_one has]
      exact_mod_cast halt
    have hterma : 0 < -((a : ℝ) / (l.sum : ℝ)) * Real.logb 2 ((a : ℝ) / (l.sum : ℝ)) := by
      have hl : Real.logb 2 ((a : ℝ) / (l.sum : ℝ)) < 0 :=
        Real.logb_neg (by norm_num) hp0 hp1
      nlinarith
    have hmemmap : -((a : ℝ) / (l.sum : ℝ)) * Real.logb 2 ((a : ℝ) / (l.sum : ℝ)) ∈
        (l.filter (fun x => 0 < x)).map
          (fun x : ℕ => -((x : ℝ) / (l.sum : ℝ)) * Real.logb 2 ((x : ℝ) / (l.sum : ℝ))) := by
      apply List.mem_map_of_mem
      rw [hm0]
      simp
    have hle := List.single_le_sum hterm _ hmemmap
    unfold shannon_entropy_vec
    exact lt_of_lt_of_le hterma hle

/-- Witness for C4: the bounds instantiated at the concrete histogram [2, 3],
which has two non-zero bins. -/
theorem C4_entropy_sign_witness :
    0 ≤ shannon_entropy_vec [2, 3] ∧ 0 < shannon_entropy_vec [2, 3] :=
  ⟨(C4_entropy_sign [2, 3]).1, (C4_entropy_sign [2, 3]).2.2.2 (by decide)⟩

lemma benfordProbs_entry_nonneg : ∀ row ∈ benfordProbs, ∀ x ∈ row, (0 : ℚ) ≤ x := by
  intro row hrow x hx
  simp only [benfordProbs, List.mem_cons, List.not_mem_nil, or_false] at hrow
  rcases hrow with rfl | rfl | rfl | rfl | rfl <;>
    · simp only [List.mem_cons, List.not_mem_nil, or_false] at hx
      rcases hx with rfl | rfl | rfl | rfl | rfl | rfl | rfl | rfl | rfl | rfl <;> norm_num

lemma benfordProbs_row_len : ∀ row ∈ benfordProbs, row.length = 10 := by
  intro row hrow
  simp only [benfordProbs, List.mem_cons, List.not_mem_nil, or_false] at hrow
  rcases hrow with rfl | rfl | rfl | rfl | rfl <;> rfl

lemma benford_nonneg (d idx : ℕ) : (0 : ℚ) ≤ prob_of_benford_digit d idx := by
  by_cases h : 9 < d ∨ benfordProbs.length ≤ idx
  · rw [prob_of_benford_digit, if_pos h]
    norm_num
  · rw [prob_of_benford_digit, if_neg h]
    push_neg at h
    obtain ⟨h1, h2⟩ := h
    have hidx : idx < benfordProbs.length := h2
    have hrowmem : benfordProbs.getD idx [] ∈ benfordProbs := by
      rw [List.getD_eq_getElem?_getD, List.getElem?_eq_getElem hidx]
      exact List.getElem_mem hidx
    have hdlt : d < (benfordProbs.getD idx []).length := by
      rw [benfordProbs_row_len _ hrowmem]
      omega
    rw [List.getD_eq_getElem?_getD, List.getElem?_eq_getElem hdlt]
    exact benfordProbs_entry_nonneg _ hrowmem _ (List.getElem_mem hdlt)

set_option maxHeartbeats 1000000 in
lemma benford_row_sum_le_one (idx : ℕ) :
    prob_of_benford_digit 0 idx + prob_of_benford_digit 1 idx + prob_of_benford_digit 2 idx +
    prob_of_benford_digit 3 idx + prob_of_benford_digit 4 idx + prob_of_benford_digit 5 idx +
    prob_of_benford_digit 6 idx + prob_of_benford_digit 7 idx + prob_of_benford_digit 8 idx +
    prob_of_benford_digit 9 idx ≤ 1 := by
  match idx with
  | 0 => norm_num [prob_of_benford_digit, benfordProbs]
  | 1 => norm_num [prob_of_benford_digit, benfordProbs]
  | 2 => norm_num [prob_of_benford_digit, benfordProbs]
  | 3 => norm_num [prob_of_benford_digit, benfordProbs]
  | 4 => norm_num [prob_of_benford_digit, benfordProbs]
  | n + 5 =>
    have h : ∀ d : ℕ, prob_of_benford_digit d (n + 5) = 0.1 := by
      intro d
      rw [prob_of_benford_digit, if_pos]
      right
      rw [show benfordProbs.length = 5 from rfl]
      omega
    rw [h 0, h 1, h 2, h 3, h 4, h 5, h 6, h 7, h 8, h 9]
    norm_num

lemma abs_sub_le_add {a b : ℝ} (ha : 0 ≤ a) (hb : 0 ≤ b) : |a - b| ≤ a + b := by
  rw [abs_le]
  constructor <;> linarith

/-- Claim C7: for every 10-entry frequency vector of non-negative values
summing to 1 and every digit position, `benford_diff` is bounded by 2, the
triangle-inequality bound for the L1 distance between two (sub-)probability
distributions. -/
theorem C7_benford_diff_bound :
    ∀ (num_freq : List ℝ) (index : ℕ),
      num_freq.length = 10 →
      (∀ f ∈ num_freq, 0 ≤ f) →
      num_freq.sum = 1 →
      benford_diff num_freq index ≤ 2 := by
  intro num_freq index hlen hnn hsum
  rcases num_freq with _ | ⟨f0, _ | ⟨f1, _ | ⟨f2, _ | ⟨f3, _ | ⟨f4, _ | ⟨f5, _ | ⟨f6,
    _ | ⟨f7, _ | ⟨f8, _ | ⟨f9, tail⟩⟩⟩⟩⟩⟩⟩⟩⟩⟩ <;>
    simp only [List.length_cons, List.length_nil] at hlen <;> try omega
  have htail : tail = [] := by
    have : tail.length = 0 := by omega
    exact List.length_eq_zero.mp this
  subst htail
  have hp : ∀ d : ℕ, (0 : ℝ) ≤ (prob_of_benford_digit d index : ℝ) := by
    intro d
    exact_mod_cast benford_nonneg d index
  have hrowR : (prob_of_benford_digit 0 index : ℝ) + (prob_of_benford_digit 1 index : ℝ) +
      (prob_of_benford_digit 2 index : ℝ) + (prob_of_benford_digit 3 index : ℝ) +
      (prob_of_benford_digit 4 index : ℝ) + (prob_of_benford_digit 5 index : ℝ) +
      (prob_of_benford_digit 6 index : ℝ) + (prob_of_benford_digit 7 index : ℝ) +
      (prob_of_benford_digit 8 index : ℝ) + (prob_of_benford_digit 9 index : ℝ) ≤ 1 := by
    exact_mod_cast benford_row_sum_le_one index
  simp only [List.mem_cons, List.not_mem_nil, or_false, forall_eq_or_imp, forall_eq] at hnn
  obtain ⟨h0, h1, h2, h3, h4, h5, h6, h7, h8, h9⟩ := hnn
  simp only [List.sum_cons, List.sum_nil] at hsum
  simp only [benford_diff, benfordDiffAux]
  norm_num
  have t0 := abs_sub_le_add h0 (hp 0)
  have t1 := abs_sub_le_add h1 (hp 1)
  have t2 := abs_sub_le_add h2 (hp 2)
  have t3 := abs_sub_le_add h3 (hp 3)
  have t4 := abs_sub_le_add h4 (hp 4)
  have t5 := abs_sub_le_add h5 (hp 5)
  have t6 := abs_sub_le_add h6 (hp 6)
  have t7 := abs_sub_le_add h7 (hp 7)
  have t8 := abs_sub_le_add h8 (hp 8)
  have t9 := abs_sub_le_add h9 (hp 9)
  linarith

/-- Witness for C7: the bound at the concrete frequency vector concentrated on
digit 0, at position 0. -/
theorem C7_benford_diff_bound_witness :
    benford_diff [1, 0, 0, 0, 0, 0, 0, 0, 0, 0] 0 ≤ 2 :=
  C7_benford_diff_bound [1, 0, 0, 0, 0, 0, 0, 0, 0, 0] 0 (by simp)
    (by
      intro f hf
      simp only [List.mem_cons, List.not_mem_nil, or_false] at hf
      rcases hf with rfl | rfl | rfl | rfl | rfl | rfl | rfl | rfl | rfl | rfl <;> norm_num)
    (by norm_num)

lemma sum_map_count_dedup (l : List Char) :
    (l.dedup.map (fun c => l.count c)).sum = l.length := by
  have h := Multiset.toFinset_sum_count_eq (l : Multiset Char)
  simpa [Finset.sum] using h

lemma charCounts_filter_pos (text : String) :
    (charCounts text).filter (fun x => 0 < x) = charCounts text := by
  rw [List.filter_eq_self]
  intro a ha
  simp only [charCounts, List.mem_map, List.mem_dedup] at ha
  obtain ⟨c, hc, rfl⟩ := ha
  simpa using List.count_pos_iff.mpr hc

lemma charCounts_sum (text : String) : (charCounts text).sum = text.data.length :=
  sum_map_count_dedup text.data

lemma entropy_str_of_nodup (text : String) (hnd : text.data.Nodup)
    (hn : text.data.length ≠ 0) (hlen : strByteLen text = text.data.length) :
    shannon_entropy_str text = Real.logb 2 (text.data.length : ℝ) := by
  have hded : text.data.dedup = text.data := List.dedup_eq_self.mpr hnd
  unfold shannon_entropy_str charCounts
  rw [hded, hlen, List.map_map]
  have hrep : text.data.map
      ((fun x : ℕ =>
        -((x : ℝ) / (text.data.length : ℝ)) * Real.logb 2 ((x : ℝ) / (text.data.length : ℝ))) ∘
        (fun c => text.data.count c)) =
      List.replicate text.data.length
        (-((1 : ℝ) / (text.data.length : ℝ)) *
          Real.logb 2 ((1 : ℝ) / (text.data.length : ℝ))) := by
    rw [List.eq_replicate_iff]
    refine ⟨by simp, ?_⟩
    intro b hb
    simp only [List.mem_map, Function.comp] at hb
    obtain ⟨c, hc, rfl⟩ := hb
    rw [List.count_eq_one_of_mem hnd hc]
    norm_num
  rw [hrep, List.sum_replicate, nsmul_eq_mul]
  have hn0 : ((text.data.length : ℕ) : ℝ) ≠ 0 := Nat.cast_ne_zero.mpr hn
  rw [one_div, Real.logb_inv, neg_mul_neg, ← mul_assoc, mul_inv_cancel₀ hn0, one_mul]

/-- Claim C3 (amended): `shannon_entropy_str` applies the entropy formula to
the character histogram dividing by the UTF-8 byte length, so it equals
`shannon_entropy_vec` on the histogram exactly for strings whose byte length
equals their character count (in particular all ASCII strings); moreover
`shannon_entropy_str "abcdefghijklmnop"` is exactly 4 and the empty string
yields 0. -/
theorem C3_entropy_correspondence :
    (∀ text : String, strByteLen text = text.data.length →
        shannon_entropy_str text = shannon_entropy_vec (charCounts text)) ∧
    shannon_entropy_str "abcdefghijklmnop" = 4 ∧
    shannon_entropy_str "" = 0 := by
  refine ⟨?_, ?_, ?_⟩
  · intro text h
    unfold shannon_entropy_str shannon_entropy_vec
    rw [charCounts_filter_pos, charCounts_sum, h]
  · have h16 := entropy_str_of_nodup "abcdefghijklmnop" (by decide) (by decide) (by decide)
    rw [show ("abcdefghijklmnop".data.length : ℝ) = 16 from by norm_num] at h16
    rw [h16, show (16 : ℝ) = 2 ^ (4 : ℕ) from by norm_num, Real.logb_pow,
      Real.logb_self_eq_one (by norm_num)]
    norm_num
  · simp [shannon_entropy_str, charCounts]

/-- Witness for C3: the correspondence instantiated at the ASCII string
"ab". -/
theorem C3_entropy_correspondence_witness :
    shannon_entropy_str "ab" = shannon_entropy_vec (charCounts "ab") :=
  C3_entropy_correspondence.1 "ab" (by decide)

/-- Counterexample to claim C3 as stated: on the two-character string of two
U+03BB (2 UTF-8 bytes each), `shannon_entropy_str` divides by the byte length
4 and returns 1/2, while `shannon_entropy_vec` on the histogram [2] returns 0,
so the claimed equality fails for some string. -/
theorem C3_counterexample :
    shannon_entropy_str "λλ" ≠ shannon_entropy_vec (charCounts "λλ") := by
  have hcc : charCounts "λλ" = [2] := by decide
  have hbl : strByteLen "λλ" = 4 := by decide
  have hstr : shannon_entropy_str "λλ" = 1 / 2 := by
    unfold shannon_entropy_str
    rw [hcc, hbl]
    simp only [List.map_cons, List.map_nil, List.sum_cons, List.sum_nil]
    rw [show ((2 : ℕ) : ℝ) / ((4 : ℕ) : ℝ) = (2 : ℝ)⁻¹ from by norm_num]
    rw [Real.logb_inv, Real.logb_self_eq_one (by norm_num)]
    norm_num
  have hvec : shannon_entropy_vec (charCounts "λλ") = 0 := by
    rw [hcc]
    unfold shannon_entropy_vec
    norm_num
  rw [hstr, hvec]
  norm_num

end Mireiniwr
